import Mathlib

/-!
Verification of the `voluptuous-openapi` converter
(`src/voluptuous_openapi/__init__.py`) against its natural-language
specification.

The single exported Python function is `convert(schema, *,
custom_serializer=None)`, a recursive translator from voluptuous schema
nodes to OpenAPI schema fragments (Python dictionaries).  We model the
closed set of input node kinds the converter dispatches on as the
inductive type `Schema`, output documents as insertion-ordered
association lists (`Fragment`), and the converter itself as `convert`,
returning `Except CErr Fragment` (`CErr.unconvertible` models the
`ValueError` raised at the fall-through of the dispatch chain, source
line 289; `CErr.attrError` the `AttributeError` raised by
`schema.items()` on a sequence whose length is not 1, line 244).

Modelling conventions:
* Python dictionaries are insertion-ordered; `d[k] = v` keeps the
  position of an existing key and appends a fresh key at the end
  (`insertF`), `d.pop(k)` removes the key (`eraseF`), `d.update(e)`
  assigns every pair of `e` in order (`updateF`).  All code paths of the
  converter build fragments with a canonical key order, so structural
  equality of the ordered representation coincides with Python `==` on
  every fragment compared below.
* Numeric bounds and literal values are modelled with `Int`; the
  converter never computes with them, it only copies them into the
  output.  `float` literals and bounds are omitted from the value model
  for the same reason.
* The string rendering `str(pkey)` of a non-string mapping key (used on
  source line 92) is carried in the node (`PKey.pother`); quote signs of
  the Python `repr` are elided because the converter treats the text as
  opaque.
-/

set_option linter.unusedVariables false

namespace VolOpenapi

/-- Output values: the JSON-like data stored in an OpenAPI fragment.
`vobj` is a Python dict as an insertion-ordered association list. -/
inductive Val : Type where
  | vstr (s : String)
  | vint (n : Int)
  | vbool (b : Bool)
  | vnull
  | vlist (l : List Val)
  | vobj (l : List (String × Val))

mutual

/-- Structural (Python `==`) equality test on output values. -/
def beqVal : Val → Val → Bool
  | .vstr s, .vstr t => s == t
  | .vint n, .vint m => n == m
  | .vbool b, .vbool c => b == c
  | .vnull, .vnull => true
  | .vlist xs, .vlist ys => beqValList xs ys
  | .vobj xs, .vobj ys => beqObjList xs ys
  | _, _ => false

def beqValList : List Val → List Val → Bool
  | [], [] => true
  | x :: xs, y :: ys => beqVal x y && beqValList xs ys
  | _, _ => false

def beqObjList : List (String × Val) → List (String × Val) → Bool
  | [], [] => true
  | (k, x) :: xs, (k2, y) :: ys => k == k2 && beqVal x y && beqObjList xs ys
  | _, _ => false

end

mutual

theorem beqVal_iff : ∀ a b : Val, beqVal a b = true ↔ a = b
  | .vstr s, b => by cases b <;> simp [beqVal]
  | .vint n, b => by cases b <;> simp [beqVal]
  | .vbool c, b => by cases b <;> simp [beqVal]
  | .vnull, b => by cases b <;> simp [beqVal]
  | .vlist xs, b => by
      cases b <;> simp [beqVal]
      exact beqValList_iff xs _
  | .vobj xs, b => by
      cases b <;> simp [beqVal]
      exact beqObjList_iff xs _

theorem beqValList_iff : ∀ xs ys : List Val, beqValList xs ys = true ↔ xs = ys
  | [], ys => by cases ys <;> simp [beqValList]
  | x :: xs, ys => by
      cases ys with
      | nil => simp [beqValList]
      | cons y ys => simp [beqValList, beqVal_iff x y, beqValList_iff xs ys]

theorem beqObjList_iff :
    ∀ xs ys : List (String × Val), beqObjList xs ys = true ↔ xs = ys
  | [], ys => by cases ys <;> simp [beqObjList]
  | (k, x) :: xs, ys => by
      cases ys with
      | nil => simp [beqObjList]
      | cons p ys =>
        cases p with
        | mk k2 y =>
            simp [beqObjList, beqVal_iff x y, beqObjList_iff xs ys, and_assoc]

end

instance : DecidableEq Val := fun a b =>
  decidable_of_iff (beqVal a b = true) (beqVal_iff a b)

/-- An OpenAPI schema fragment: a Python dict with string keys,
insertion-ordered. -/
abbrev Fragment := List (String × Val)

/-- Python `d[k] = v`: replace in place if the key exists, else append. -/
def insertF (k : String) (v : Val) : Fragment → Fragment
  | [] => [(k, v)]
  | (k', v') :: rest =>
      if k' = k then (k', v) :: rest else (k', v') :: insertF k v rest

/-- Python `d.get(k)`: the value of the first entry with the key. -/
def lookupF (k : String) : Fragment → Option Val
  | [] => none
  | (k', v') :: rest => if k' = k then some v' else lookupF k rest

/-- Python `k in d`. -/
def containsKeyF (k : String) (f : Fragment) : Bool :=
  f.any (fun p => p.1 = k)

/-- Python `d.pop(k)`: remove the (first) entry with the key. -/
def eraseF (k : String) : Fragment → Fragment
  | [] => []
  | (k', v') :: rest => if k' = k then rest else (k', v') :: eraseF k rest

/-- Python `d.update(e)`: assign every pair of `e` in order. -/
def updateF (d e : Fragment) : Fragment :=
  e.foldl (fun acc p => insertF p.1 p.2 acc) d

/-- Python truthiness of `d.get(k)`-style optional values: `None`, empty
containers, `False`, `0` and the empty string are falsy. -/
def truthyV : Option Val → Bool
  | none => false
  | some (.vbool b) => b
  | some (.vobj l) => !l.isEmpty
  | some (.vlist l) => !l.isEmpty
  | some (.vstr s) => !(s = "")
  | some (.vint n) => !(n = 0)
  | some .vnull => false

/-- Nonempty key intersection: Python `v.keys() & val.keys()` being
truthy (source line 114). -/
def keysIntersect (a b : Fragment) : Bool :=
  a.any (fun p => containsKeyF p.1 b)

/-- The fully permissive Wildcard fragment
`{"type": "object", "additionalProperties": True}` (source lines 85, 111,
191, 259, 270). -/
def wildcardFrag : Fragment :=
  [("type", Val.vstr "object"), ("additionalProperties", Val.vbool true)]

/-- `ensure_default` (source lines 26-30): if none of `type`, `anyOf`,
`oneOf`, `allOf`, `not` is present, set `type` to the default
`"string"`. -/
def ensureDefault (f : Fragment) : Fragment :=
  if containsKeyF "type" f = false ∧ containsKeyF "anyOf" f = false ∧
     containsKeyF "oneOf" f = false ∧ containsKeyF "allOf" f = false ∧
     containsKeyF "not" f = false
  then insertF "type" (Val.vstr "string") f
  else f

/-- Python `type` objects (and `NoneType` / `Enum` subclasses) that can
appear as schema nodes or as `Coerce` targets. -/
inductive PyType : Type where
  | tint
  | tstr
  | tfloat
  | tbool
  | tdict
  | tlist
  | tset
  | ttuple
  | tobject
  | tNone
  | tenum (values : List Val)
deriving DecidableEq

/-- Literal scalar instances (`str`/`int`/`bool` values or `None`,
source line 222). -/
inductive LitVal : Type where
  | ls (s : String)
  | li (n : Int)
  | lb (b : Bool)
  | lnull
deriving DecidableEq

/-- The inner schema of a `Required`/`Optional` marker: either a plain
string key name or any other object, carried with its `str()`
rendering (only the rendering is ever used by the converter, line 92). -/
inductive PKey : Type where
  | pstr (s : String)
  | pother (rendered : String)
deriving DecidableEq

/-- One member of a `vol.Any` used as mapping key (source lines 72-81):
its rendered name and, when the member is a `vol.Marker`, the marker's
description. -/
structure AnyItem : Type where
  name : String
  description : Option String
deriving DecidableEq

/-- A key of a Python mapping schema, as the converter distinguishes
them: `Required`/`Optional` markers (with description and materialized
default), a bare `vol.Any` presence-group key, or an unmarked key. -/
inductive MKey : Type where
  | req (pkey : PKey) (description : Option String) (defaultVal : Option Val)
  | opt (pkey : PKey) (description : Option String) (defaultVal : Option Val)
  | anyK (items : List AnyItem)
  | plainK (pkey : PKey)
deriving DecidableEq

mutual

/-- The closed set of schema node kinds dispatched by `convert`
(source lines 50-289), in source order of their `isinstance` branches.
`unknown` stands for any value matching no recognized kind (the
fall-through of line 289).  `vol.Object` and `vol.Schema` wrappers and
callable nodes are not exercised by any claim and are omitted;
`dictAnn k none` models `dict[K, V]` with `V` being `typing.Any` or a
`TypeVar` (line 252), `dictAnn k (some v)` the general `dict[K, V]`. -/
inductive Schema : Type where
  | mapping (pairs : List (MKey × Schema))
  | sAll (validators : List Schema)
  | clamp (lo hi : Option Int)
  | range (lo hi : Option Int) (loIncl hiIncl : Bool)
  | length (lo hi : Option Int)
  | datetime
  | matchP (pattern : String)
  | inC (container : List Val)
  | fmt (name : String)
  | sAny (validators : List Schema)
  | coerce (t : PyType)
  | lit (v : LitVal)
  | listAnn (arg : Schema)
  | seq (elems : List Schema)
  | ptype (t : PyType)
  | dictAnn (keyAnn : Schema) (valAnn : Option Schema)
  | unknown

end

/-- Conversion failures: `unconvertible` is the
`ValueError("Unable to convert schema: ...")` of source line 289,
`attrError` the `AttributeError` raised by `schema.items()` on a
sequence of length other than 1 (line 244). -/
inductive CErr : Type where
  | unconvertible
  | attrError
deriving DecidableEq

/-- A custom serializer: returns `none` for the `UNSUPPORTED` sentinel. -/
abbrev CSer := Schema → Option Fragment

/-- Apply the optional custom serializer (source lines 38-41). -/
def hookApply (cs : Option CSer) (s : Schema) : Option Fragment :=
  match cs with
  | some f => f s
  | none => none

/-- Member of a `vol.Any` equal (by identity) to `None` or `NoneType`
(source lines 180-181). -/
def isNullS : Schema → Bool
  | .lit .lnull => true
  | .ptype .tNone => true
  | _ => false

/-- Numeric-bound fragment of `vol.Clamp` / `vol.Range` (source lines
124-136): `minimum`/`maximum` for inclusive bounds,
`exclusiveMinimum`/`exclusiveMaximum` for exclusive ones; `Clamp`
bounds are always inclusive. -/
def rangeFrag (lo hi : Option Int) (loIncl hiIncl : Bool) : Fragment :=
  let f : Fragment := []
  let f := match lo with
    | some n => insertF (if loIncl then "minimum" else "exclusiveMinimum") (Val.vint n) f
    | none => f
  match hi with
  | some n => insertF (if hiIncl then "maximum" else "exclusiveMaximum") (Val.vint n) f
  | none => f

/-- `vol.Length` fragment (source lines 138-144). -/
def lengthFrag (lo hi : Option Int) : Fragment :=
  let f : Fragment := []
  let f := match lo with
    | some n => insertF "minLength" (Val.vint n) f
    | none => f
  match hi with
  | some n => insertF "maxLength" (Val.vint n) f
  | none => f

/-- `TYPES_MAP.get(type(first), "string")` for `vol.In` members (source
lines 160-165). -/
def enumTypeOf : List Val → String
  | [] => "string"
  | v :: _ =>
      match v with
      | .vint _ => "integer"
      | .vstr _ => "string"
      | .vbool _ => "boolean"
      | _ => "string"

/-- A literal scalar as an output value. -/
def litToVal : LitVal → Val
  | .ls s => Val.vstr s
  | .li n => Val.vint n
  | .lb b => Val.vbool b
  | .lnull => Val.vnull

/-- Conversion of a Python `type` node, reached either directly or after
unwrapping `vol.Coerce` (source lines 219-220, 248-270): `TYPES_MAP`
lookup for the scalar types (line 248), permissive object for `dict`
(259) and `object` (270), array for `list`/`set`/`tuple` (262), member
values for an `Enum` subclass (265), `enum: [None]` for `NoneType`
(267). -/
def convertPyType : PyType → Fragment
  | .tint => [("type", Val.vstr "integer")]
  | .tstr => [("type", Val.vstr "string")]
  | .tfloat => [("type", Val.vstr "number")]
  | .tbool => [("type", Val.vstr "boolean")]
  | .tdict => wildcardFrag
  | .tlist => [("type", Val.vstr "array"), ("items", Val.vobj (ensureDefault []))]
  | .tset => [("type", Val.vstr "array"), ("items", Val.vobj (ensureDefault []))]
  | .ttuple => [("type", Val.vstr "array"), ("items", Val.vobj (ensureDefault []))]
  | .tenum values => [("enum", Val.vlist values)]
  | .tNone => [("enum", Val.vlist [Val.vnull])]
  | .tobject => wildcardFrag

/-- Description of a mapping key (source lines 56-58): only
`vol.Marker` keys carry one. -/
def descOf : MKey → Option String
  | .req _ d _ => d
  | .opt _ d _ => d
  | .anyK _ => none
  | .plainK _ => none

/-- Materialized default of a mapping key (source lines 66-68): only
`Required`/`Optional` markers carry one. -/
def defaultOf : MKey → Option Val
  | .req _ _ dv => dv
  | .opt _ _ dv => dv
  | .anyK _ => none
  | .plainK _ => none

/-- The `additional_properties` update for a non-string key (source
lines 84-89): a converted value equal to the Wildcard fragment
degenerates to `True` and overrides any earlier value; otherwise the
first non-string key's fragment wins. -/
def capture (ap : Option Val) (pval : Fragment) : Option Val :=
  if pval = wildcardFrag then some (Val.vbool true)
  else
    match ap with
    | none => some (Val.vobj pval)
    | some a => some a

/-- Property entries contributed by a `vol.Any` mapping key (source
lines 72-81): every member name maps to the converted value fragment; a
member that is a marker with a truthy description gets a copy of the
fragment with the description appended. -/
def anyKeyProps (items : List AnyItem) (pval : Fragment) (props : Fragment) : Fragment :=
  items.foldl
    (fun ps it =>
      match it.description with
      | some d =>
          if d ≠ "" then
            insertF it.name (Val.vobj (insertF "description" (Val.vstr d) pval)) ps
          else insertF it.name (Val.vobj pval) ps
      | none => insertF it.name (Val.vobj pval) ps)
    props

/-- Final assembly of a mapping fragment (source lines 94-99). -/
def assembleMap (props : Fragment) (req : List Val) (ap : Option Val) : Fragment :=
  let val : Fragment := [("type", Val.vstr "object")]
  let val :=
    if props ≠ [] ∨ truthyV ap = false then
      insertF "required" (Val.vlist req) (insertF "properties" (Val.vobj props) val)
    else val
  if truthyV ap then
    match ap with
    | some a => insertF "additionalProperties" a val
    | none => val
  else val

/-- One step of the `vol.All` loop (source lines 106-119) over the
fragments of the converted validators, on the state
`(val, fallback, allOf)`: skip empty, duplicate and Wildcard fragments;
a key intersection with the accumulator sets the fallback flag; every
accepted fragment is appended to the `allOf` list and merged into the
accumulator while no fallback occurred. -/
def allStep (st : Fragment × Bool × List Fragment) (v : Fragment) :
    Fragment × Bool × List Fragment :=
  if v = [] ∨ v ∈ st.2.2 ∨ v = wildcardFrag then st
  else
    let fb := st.2.1 || keysIntersect v st.1
    (if fb then st.1 else updateF st.1 v, fb, st.2.2 ++ [v])

/-- The `vol.All` loop run from the initial state. -/
def allRun (fs : List Fragment) : Fragment × Bool × List Fragment :=
  fs.foldl allStep ([], false, [])

/-- The accepted (non-skipped) fragments of a `vol.All` conversion. -/
def acceptedOf (fs : List Fragment) : List Fragment :=
  (allRun fs).2.2

/-- Result of a `vol.All` conversion from the final loop state (source
lines 120-122): the `allOf` list on fallback, else the merged
accumulator with the default type ensured. -/
def allFinish (st : Fragment × Bool × List Fragment) : Fragment :=
  if st.2.1 then [("allOf", Val.vlist (st.2.2.map Val.vobj))]
  else ensureDefault st.1

/-- Replace the first occurrence of `t` by `t` with `nullable: True`
set: Python `tmpAnyOf[tmpAnyOf.index(tmpItem)]["nullable"] = True`
(source line 204). -/
def setNullableAtFirst : List Fragment → Fragment → List Fragment
  | [], _ => []
  | x :: xs, t =>
      if x = t then insertF "nullable" (Val.vbool true) x :: xs
      else x :: setNullableAtFirst xs t

/-- One step of the `vol.Any` deduplication loop (source lines
194-209): skip exact duplicates; a nullable item whose non-nullable
twin is already present marks that twin nullable instead; an item whose
nullable twin is already present is dropped; everything else is
appended. -/
def dedupStep (acc : List Fragment) (item : Fragment) : List Fragment :=
  if item ∈ acc then acc
  else if truthyV (lookupF "nullable" item) = true ∧ eraseF "nullable" item ∈ acc then
    setNullableAtFirst acc (eraseF "nullable" item)
  else
    let tmpItem :=
      if truthyV (lookupF "nullable" item) = true then eraseF "nullable" item else item
    if insertF "nullable" (Val.vbool true) tmpItem ∈ acc then acc
    else acc ++ [item]

/-- Combine the fragments of the non-null members of a `vol.Any`
(source lines 185-214): a single member's fragment is returned
directly; otherwise a Wildcard member subsumes the union, and the
deduplicated list is wrapped in `anyOf` unless one fragment remains. -/
def anyResult : List Fragment → Fragment
  | [f] => f
  | fs =>
      if wildcardFrag ∈ fs then wildcardFrag
      else
        match fs.foldl dedupStep [] with
        | [g] => g
        | gs => [("anyOf", Val.vlist (gs.map Val.vobj))]

/-- Apply `result["nullable"] = True` when a null member was present
(source lines 215-216). -/
def applyNullable (b : Bool) (f : Fragment) : Fragment :=
  if b then insertF "nullable" (Val.vbool true) f else f

/-- Post-processing of `convert({K: V})` for a `dict[K, V]` annotation
(source line 255): the constructed singleton mapping `{K: V}` has the
type `K` as its only key, which is neither a marker, a `vol.Any` nor a
string, so its converted value lands in `additional_properties` (lines
84-89) and the assembly of lines 94-99 omits `properties`/`required`
(the properties dict is empty and `additional_properties` is truthy).
`convert_dict_value_mapping` below proves this equal to converting the
mapping node itself. -/
def dictAnnAssemble (pv : Fragment) : Fragment :=
  let pval := ensureDefault pv
  if pval = wildcardFrag then
    [("type", Val.vstr "object"), ("additionalProperties", Val.vbool true)]
  else
    [("type", Val.vstr "object"), ("additionalProperties", Val.vobj pval)]

mutual

/-- Shallow embedding of `convert` (source lines 22-289).  The custom
serializer is consulted first (lines 38-41); the node kinds are then
dispatched exactly as the chain of `isinstance` branches does — the
branches are mutually exclusive on the modelled node kinds, so the
match order is immaterial.  In the `sAny` branch the source filters out
null members (lines 180-184) and converts only the survivors; here
every member is converted and the fragments of null members are
discarded afterwards (null members always convert successfully,
`convert_isNull_ok` below, so the results agree — the reordering makes
the recursion structural). -/
def convert (cs : Option CSer) (s : Schema) : Except CErr Fragment :=
  match hookApply cs s with
  | some r => .ok r
  | none =>
    match s with
    | .mapping pairs =>
        match convPairs cs pairs [] [] none with
        | .error e => .error e
        | .ok st => .ok (assembleMap st.1 st.2.1 st.2.2)
    | .sAll vs =>
        match convList cs vs with
        | .error e => .error e
        | .ok fs => .ok (allFinish (allRun fs))
    | .clamp lo hi => .ok (rangeFrag lo hi true true)
    | .range lo hi loI hiI => .ok (rangeFrag lo hi loI hiI)
    | .length lo hi => .ok (lengthFrag lo hi)
    | .datetime => .ok [("type", Val.vstr "string"), ("format", Val.vstr "date-time")]
    | .matchP p => .ok [("pattern", Val.vstr p)]
    | .inC vals => .ok [("type", Val.vstr (enumTypeOf vals)), ("enum", Val.vlist vals)]
    | .fmt n => .ok [("format", Val.vstr n)]
    | .sAny vs =>
        match convMembers cs vs with
        | .error e => .error e
        | .ok pairs =>
            let survivors := pairs.filterMap (fun p => if p.1 then none else some p.2)
            .ok (applyNullable (vs.any isNullS) (anyResult survivors))
    | .coerce t => .ok (convertPyType t)
    | .lit v => .ok [("enum", Val.vlist [litToVal v])]
    | .listAnn a =>
        match convert cs a with
        | .error e => .error e
        | .ok f => .ok [("type", Val.vstr "array"), ("items", Val.vobj (ensureDefault f))]
    | .seq [x] =>
        match convert cs x with
        | .error e => .error e
        | .ok f => .ok [("type", Val.vstr "array"), ("items", Val.vobj (ensureDefault f))]
    | .seq _ => .error .attrError
    | .ptype t => .ok (convertPyType t)
    | .dictAnn _ none => .ok wildcardFrag
    | .dictAnn _ (some v) =>
        match convert none v with
        | .error e => .error e
        | .ok f => .ok (dictAnnAssemble f)
    | .unknown => .error .unconvertible

/-- Convert a list of schemas in order, stopping at the first failure
(the `vol.All` loop of lines 106-107 and the `vol.Any` comprehension of
lines 188-190). -/
def convList (cs : Option CSer) : List Schema → Except CErr (List Fragment)
  | [] => .ok []
  | x :: rest =>
      match convert cs x with
      | .error e => .error e
      | .ok f =>
          match convList cs rest with
          | .error e => .error e
          | .ok fs => .ok (f :: fs)

/-- Convert every member of a `vol.Any`, keeping its null-ness flag. -/
def convMembers (cs : Option CSer) : List Schema → Except CErr (List (Bool × Fragment))
  | [] => .ok []
  | x :: rest =>
      match convert cs x with
      | .error e => .error e
      | .ok f =>
          match convMembers cs rest with
          | .error e => .error e
          | .ok ps => .ok ((isNullS x, f) :: ps)

/-- The loop over the pairs of a mapping schema (source lines 54-92) on
the state `(properties, required, additional_properties)`: the value is
converted, description and materialized default are attached, the
default type is ensured, and the fragment is routed by key kind; a
`Required` key appends `str(pkey)` to the required list (line 92). -/
def convPairs (cs : Option CSer) :
    List (MKey × Schema) → Fragment → List Val → Option Val →
    Except CErr (Fragment × List Val × Option Val)
  | [], props, req, ap => .ok (props, req, ap)
  | (key, value) :: rest, props, req, ap =>
      match convert cs value with
      | .error e => .error e
      | .ok pv0 =>
          let pv1 :=
            match descOf key with
            | some d => if d ≠ "" then insertF "description" (Val.vstr d) pv0 else pv0
            | none => pv0
          let pv2 :=
            match defaultOf key with
            | some dv => insertF "default" dv pv1
            | none => pv1
          let pval := ensureDefault pv2
          match key with
          | .anyK items => convPairs cs rest (anyKeyProps items pval props) req ap
          | .req pk _ _ =>
              match pk with
              | .pstr name =>
                  convPairs cs rest (insertF name (Val.vobj pval) props)
                    (req ++ [Val.vstr name]) ap
              | .pother r =>
                  convPairs cs rest props (req ++ [Val.vstr r]) (capture ap pval)
          | .opt pk _ _ =>
              match pk with
              | .pstr name =>
                  convPairs cs rest (insertF name (Val.vobj pval) props) req ap
              | .pother _ => convPairs cs rest props req (capture ap pval)
          | .plainK pk =>
              match pk with
              | .pstr name =>
                  convPairs cs rest (insertF name (Val.vobj pval) props) req ap
              | .pother _ => convPairs cs rest props req (capture ap pval)

end


/-- Shape keywords checked by `ensure_default` (source line 28). -/
def hasShapeKeyword (f : Fragment) : Bool :=
  containsKeyF "type" f || containsKeyF "anyOf" f || containsKeyF "oneOf" f ||
  containsKeyF "allOf" f || containsKeyF "not" f

/-- Invariant of the `vol.All` loop state `(val, fallback, allOf)`:
while no fallback occurred, the accumulator is the left fold of the
accepted fragments and their key sets are pairwise disjoint; once the
fallback flag is set, the accepted fragments are not pairwise
key-disjoint. -/
def AllInv (st : Fragment × Bool × List Fragment) : Prop :=
  (st.2.1 = false →
      st.1 = st.2.2.foldl updateF [] ∧
      st.2.2.Pairwise (fun a b => keysIntersect a b = false))
  ∧ (st.2.1 = true →
      ¬ st.2.2.Pairwise (fun a b => keysIntersect a b = false))

mutual

/-- A node of the unrecognized kind (`Schema.unknown`, the fall-through
of source line 289) occurs somewhere in the tree. -/
def hasUnknown : Schema → Bool
  | .unknown => true
  | .mapping pairs => hasUnknownPairs pairs
  | .sAll vs => hasUnknownList vs
  | .sAny vs => hasUnknownList vs
  | .seq es => hasUnknownList es
  | .listAnn a => hasUnknown a
  | .dictAnn k none => hasUnknown k
  | .dictAnn k (some v) => hasUnknown k || hasUnknown v
  | _ => false

def hasUnknownList : List Schema → Bool
  | [] => false
  | x :: l => hasUnknown x || hasUnknownList l

def hasUnknownPairs : List (MKey × Schema) → Bool
  | [] => false
  | (_, v) :: l => hasUnknown v || hasUnknownPairs l

end

theorem insertF_ne_nil (k : String) (v : Val) (f : Fragment) : insertF k v f ≠ [] := by
  cases f with
  | nil => simp [insertF]
  | cons p rest =>
      cases p
      simp only [insertF]
      split <;> simp

theorem containsKeyF_nil (k : String) : containsKeyF k ([] : Fragment) = false := rfl

theorem containsKeyF_cons (k k2 : String) (v : Val) (f : Fragment) :
    containsKeyF k ((k2, v) :: f) = (decide (k2 = k) || containsKeyF k f) := rfl

theorem ensureDefault_ne_nil (f : Fragment) : ensureDefault f ≠ [] := by
  unfold ensureDefault
  split
  · exact insertF_ne_nil _ _ _
  · next h =>
      intro hf
      subst hf
      exact h ⟨rfl, rfl, rfl, rfl, rfl⟩

theorem insertF_of_not_contains (k : String) (v : Val) (f : Fragment)
    (h : containsKeyF k f = false) : insertF k v f = f ++ [(k, v)] := by
  induction f with
  | nil => simp [insertF]
  | cons p rest ih =>
      cases p with
      | mk k2 v2 =>
          simp only [containsKeyF_cons, Bool.or_eq_false_iff, decide_eq_false_iff_not] at h
          simp [insertF, h.1, ih h.2]

theorem lookupF_append_fresh (k : String) (v : Val) (f : Fragment)
    (h : containsKeyF k f = false) : lookupF k (f ++ [(k, v)]) = some v := by
  induction f with
  | nil => simp [lookupF]
  | cons p rest ih =>
      cases p with
      | mk k2 v2 =>
          simp only [containsKeyF_cons, Bool.or_eq_false_iff, decide_eq_false_iff_not] at h
          simp [lookupF, h.1, ih h.2]

theorem eraseF_append_fresh (k : String) (v : Val) (f : Fragment)
    (h : containsKeyF k f = false) : eraseF k (f ++ [(k, v)]) = f := by
  induction f with
  | nil => simp [eraseF]
  | cons p rest ih =>
      cases p with
      | mk k2 v2 =>
          simp only [containsKeyF_cons, Bool.or_eq_false_iff, decide_eq_false_iff_not] at h
          simp [eraseF, h.1, ih h.2]

theorem lookupF_of_not_contains (k : String) (f : Fragment)
    (h : containsKeyF k f = false) : lookupF k f = none := by
  induction f with
  | nil => rfl
  | cons p rest ih =>
      cases p with
      | mk k2 v2 =>
          simp only [containsKeyF_cons, Bool.or_eq_false_iff, decide_eq_false_iff_not] at h
          simp [lookupF, h.1, ih h.2]

theorem ne_insertF_fresh (k : String) (v : Val) (f : Fragment)
    (h : containsKeyF k f = false) : f ≠ insertF k v f := by
  rw [insertF_of_not_contains k v f h]
  intro hf
  have := congrArg List.length hf
  simp at this


theorem convert_isNull_ok (cs : Option CSer) (s : Schema) (h : isNullS s = true) :
    ∃ f, convert cs s = .ok f := by
  have hs : s = Schema.lit LitVal.lnull ∨ s = Schema.ptype PyType.tNone := by
    cases s <;> try (simp [isNullS] at h)
    case lit v =>
        cases v <;> try (simp [isNullS] at h)
        exact Or.inl rfl
    case ptype t =>
        cases t <;> try (simp [isNullS] at h)
        exact Or.inr rfl
  rcases hs with h1 | h1 <;> subst h1
  · cases hh : hookApply cs (.lit .lnull) with
    | none => exact ⟨[("enum", Val.vlist [litToVal LitVal.lnull])], by simp [convert, hh]⟩
    | some r => exact ⟨r, by simp [convert, hh]⟩
  · cases hh : hookApply cs (.ptype .tNone) with
    | none => exact ⟨convertPyType PyType.tNone, by simp [convert, hh]⟩
    | some r => exact ⟨r, by simp [convert, hh]⟩

theorem convMembers_filter (cs : Option CSer) (vs : List Schema) :
    (match convMembers cs vs with
     | .error e => (.error e : Except CErr (List Fragment))
     | .ok ps => .ok (ps.filterMap (fun p => if p.1 then none else some p.2)))
    = convList cs (vs.filter (fun m => !(isNullS m))) := by
  induction vs with
  | nil => rfl
  | cons x rest ih =>
      by_cases hx : isNullS x = true
      · obtain ⟨fx, hfx⟩ := convert_isNull_ok cs x hx
        rw [List.filter_cons]
        rw [if_neg (by simp [hx])]
        rw [← ih]
        simp only [convMembers, hfx]
        cases hm : convMembers cs rest with
        | error e => simp
        | ok ps => simp [hx]
      · replace hx : isNullS x = false := by simpa using hx
        rw [List.filter_cons]
        rw [if_pos (by simp [hx])]
        simp only [convMembers, convList]
        cases hc : convert cs x with
        | error e => simp
        | ok fx =>
            rw [← ih]
            cases hm : convMembers cs rest with
            | error e => simp
            | ok ps => simp [hx]

/-- Faithfulness of the `vol.Any` branch to the source structure (lines
178-217): converting the node equals converting exactly the non-null
members in order and combining their fragments. -/
theorem convert_sAny_eq (cs : Option CSer) (vs : List Schema)
    (h : hookApply cs (.sAny vs) = none) :
    convert cs (.sAny vs) =
      match convList cs (vs.filter (fun m => !(isNullS m))) with
      | .error e => .error e
      | .ok fs => .ok (applyNullable (vs.any isNullS) (anyResult fs)) := by
  rw [← convMembers_filter cs vs]
  cases hm : convMembers cs vs with
  | error e => simp [convert, h, hm]
  | ok ps => simp [convert, h, hm]


/-- Faithfulness of the `dict[K, V]` branch to the source structure
(line 255): converting the constructed singleton mapping with the type
`K` as key equals converting the value and post-processing with
`dictAnnAssemble`, as the `convert` equation for `dictAnn` does. -/
theorem convert_dict_value_mapping (v : Schema) (r : String) :
    convert none (.mapping [(.plainK (.pother r), v)]) =
      match convert none v with
      | .error e => .error e
      | .ok f => .ok (dictAnnAssemble f) := by
  cases hc : convert none v with
  | error e => simp [convert, hookApply, convPairs, hc]
  | ok f =>
      simp only [convert, hookApply, convPairs, hc, descOf, defaultOf]
      by_cases hw : ensureDefault f = wildcardFrag
      · simp [assembleMap, capture, hw, dictAnnAssemble, truthyV, insertF]
      · have hne : ensureDefault f ≠ [] := ensureDefault_ne_nil f
        have hie : (ensureDefault f).isEmpty = false := by
          cases hcase : ensureDefault f
          · exact absurd hcase hne
          · rfl
        simp [assembleMap, capture, hw, dictAnnAssemble, truthyV, insertF, hie]

theorem dedupStep_nil (a : Fragment) : dedupStep [] a = [a] := by
  simp [dedupStep]

theorem dedupStep_mem (acc : List Fragment) (a : Fragment) (h : a ∈ acc) :
    dedupStep acc a = acc := by
  simp [dedupStep, h]

theorem dedupF_dup (a : Fragment) (l : List Fragment) :
    (a :: a :: l).foldl dedupStep [] = (a :: l).foldl dedupStep [] := by
  have h1 : dedupStep [] a = [a] := dedupStep_nil a
  have h2 : dedupStep [a] a = [a] := dedupStep_mem [a] a (by simp)
  simp [List.foldl_cons, h1, h2]

theorem anyResult_pair_same (f : Fragment) : anyResult [f, f] = f := by
  by_cases hw : f = wildcardFrag
  · simp [anyResult, hw]
  · have h1 : dedupStep [] f = [f] := dedupStep_nil f
    have h2 : dedupStep [f] f = [f] := dedupStep_mem [f] f (by simp)
    simp [anyResult, h1, h2, hw, eq_comm]

theorem anyResult_single (f : Fragment) : anyResult [f] = f := rfl

theorem anyResult_dup_head (a : Fragment) (l : List Fragment) :
    anyResult (a :: a :: l) = anyResult (a :: l) := by
  cases l with
  | nil => exact anyResult_pair_same a
  | cons b l2 =>
      simp only [anyResult, dedupF_dup]
      simp [List.mem_cons]


/-- C4: for a Union (`vol.Any`) node in which, after removing null
alternatives, exactly one alternative remains, `convert` returns that
alternative's converted fragment directly, with no `anyOf` wrapper and
with `nullable: True` set exactly when a null alternative was present;
in particular `Any(None, str)` converts to
`{"type": "string", "nullable": True}` (source lines 178-187, 215-217). -/
theorem c4_single_member_union :
    (∀ (vs : List Schema) (x : Schema),
        vs.filter (fun m => !(isNullS m)) = [x] →
        convert none (.sAny vs) =
          match convert none x with
          | .error e => .error e
          | .ok f => .ok (applyNullable (vs.any isNullS) f))
  ∧ convert none (.sAny [.lit .lnull, .ptype .tstr]) =
      .ok [("type", Val.vstr "string"), ("nullable", Val.vbool true)] := by
  constructor
  · intro vs x h
    rw [convert_sAny_eq none vs rfl, h]
    cases hc : convert none x with
    | error e => simp [convList, hc]
    | ok f => simp [convList, hc, anyResult]
  · rfl

/-- Closed instance of `c4_single_member_union`: `Any(None, int)`. -/
theorem c4_single_member_union_witness :
    convert none (.sAny [.lit .lnull, .ptype .tint]) =
      match convert none (.ptype .tint) with
      | .error e => .error e
      | .ok f =>
          .ok (applyNullable (([Schema.lit .lnull, Schema.ptype .tint]).any isNullS) f) :=
  c4_single_member_union.1 [.lit .lnull, .ptype .tint] (.ptype .tint) (by rfl)

/-- C6 (claim refuted): `Any(None)` does not convert to the empty
fragment with only `nullable: True`; the zero-survivor path of the
source (lines 185-214) falls into the general branch and emits an
empty `anyOf` list. -/
theorem c6_empty_union_counterexample :
    convert none (.sAny [.lit .lnull]) =
      .ok [("anyOf", Val.vlist []), ("nullable", Val.vbool true)]
  ∧ ([("anyOf", Val.vlist []), ("nullable", Val.vbool true)] : Fragment)
      ≠ [("nullable", Val.vbool true)] :=
  ⟨rfl, by decide⟩

/-- C6 amended: for a Union node in which zero alternatives remain
after removing null alternatives, `convert` returns the fragment
`{"anyOf": []}`, with `nullable: True` added when a null alternative
was present; so `Any(None)` converts to
`{"anyOf": [], "nullable": True}`. -/
theorem c6_empty_union_amended : ∀ vs : List Schema,
    vs.filter (fun m => !(isNullS m)) = [] →
    convert none (.sAny vs) =
      .ok (applyNullable (vs.any isNullS) [("anyOf", Val.vlist [])]) := by
  intro vs h
  rw [convert_sAny_eq none vs rfl, h]
  rfl

/-- Closed instance of `c6_empty_union_amended`: `Any(None)`. -/
theorem c6_empty_union_amended_witness :
    convert none (.sAny [.lit .lnull]) =
      .ok (applyNullable (([Schema.lit .lnull]).any isNullS) [("anyOf", Val.vlist [])]) :=
  c6_empty_union_amended [.lit .lnull] (by rfl)

/-- C5: in the Union deduplication loop (source lines 194-209) exact
duplicates collapse to one entry, a fragment and its nullable twin
merge (in either order) into the single nullable fragment, and
consequently `convert(Any(X, X, Y))` equals `convert(Any(X, Y))` for
all alternatives `X`, `Y`. -/
theorem c5_union_dedup :
    (∀ (a : Fragment) (l : List Fragment),
        (a :: a :: l).foldl dedupStep [] = (a :: l).foldl dedupStep [])
  ∧ (∀ a : Fragment, containsKeyF "nullable" a = false →
        [a, insertF "nullable" (Val.vbool true) a].foldl dedupStep []
            = [insertF "nullable" (Val.vbool true) a]
      ∧ [insertF "nullable" (Val.vbool true) a, a].foldl dedupStep []
            = [insertF "nullable" (Val.vbool true) a])
  ∧ (∀ x y : Schema, convert none (.sAny [x, x, y]) = convert none (.sAny [x, y])) := by
  refine ⟨dedupF_dup, ?_, ?_⟩
  · intro a h
    have hne : a ≠ insertF "nullable" (Val.vbool true) a :=
      ne_insertF_fresh "nullable" (Val.vbool true) a h
    have happ : insertF "nullable" (Val.vbool true) a = a ++ [("nullable", Val.vbool true)] :=
      insertF_of_not_contains "nullable" (Val.vbool true) a h
    have hlook : lookupF "nullable" (insertF "nullable" (Val.vbool true) a)
        = some (Val.vbool true) := by
      rw [happ]; exact lookupF_append_fresh "nullable" (Val.vbool true) a h
    have herase : eraseF "nullable" (insertF "nullable" (Val.vbool true) a) = a := by
      rw [happ]; exact eraseF_append_fresh "nullable" (Val.vbool true) a h
    have hlook2 : lookupF "nullable" a = none := lookupF_of_not_contains "nullable" a h
    constructor
    · have h1 : dedupStep [] a = [a] := dedupStep_nil a
      have h2 : dedupStep [a] (insertF "nullable" (Val.vbool true) a)
          = [insertF "nullable" (Val.vbool true) a] := by
        simp only [dedupStep, hlook, herase, truthyV]
        rw [if_neg (by simp [Ne.symm hne])]
        rw [if_pos (by simp)]
        simp [setNullableAtFirst]
      simp [List.foldl_cons, h1, h2]
    · have h1 : dedupStep [] (insertF "nullable" (Val.vbool true) a)
          = [insertF "nullable" (Val.vbool true) a] := dedupStep_nil _
      have h2 : dedupStep [insertF "nullable" (Val.vbool true) a] a
          = [insertF "nullable" (Val.vbool true) a] := by
        simp only [dedupStep, hlook2, truthyV]
        rw [if_neg (by simp [hne])]
        rw [if_neg (by simp)]
        simp
      simp [List.foldl_cons, h1, h2]
  · intro x y
    rw [convert_sAny_eq none [x, x, y] rfl, convert_sAny_eq none [x, y] rfl]
    by_cases hx : isNullS x = true
    · simp [List.filter_cons, List.any_cons, hx]
    · replace hx : isNullS x = false := by simpa using hx
      by_cases hy : isNullS y = true
      · simp only [List.filter_cons, List.any_cons, hx, hy, Bool.not_false,
          Bool.not_true, if_pos, if_neg, List.filter_nil]
        cases hc : convert none x with
        | error e => simp [convList, hc]
        | ok fx => simp [convList, hc, anyResult_pair_same, anyResult_single]
      · replace hy : isNullS y = false := by simpa using hy
        simp only [List.filter_cons, List.any_cons, hx, hy, Bool.not_false, if_pos,
          List.filter_nil]
        cases hc : convert none x with
        | error e => simp [convList, hc]
        | ok fx =>
            cases hcy : convert none y with
            | error e => simp [convList, hc, hcy]
            | ok fy => simp [convList, hc, hcy, anyResult_dup_head]

/-- Closed instance of the nullable-merge part of `c5_union_dedup` at
the fragment `{"type": "string"}`. -/
theorem c5_union_dedup_witness :
    [[("type", Val.vstr "string")],
        insertF "nullable" (Val.vbool true) [("type", Val.vstr "string")]].foldl dedupStep []
      = [insertF "nullable" (Val.vbool true) [("type", Val.vstr "string")]] :=
  (c5_union_dedup.2.1 [("type", Val.vstr "string")] (by decide)).1


/-- C1 (code evaluation at the failing input): the schema of the
repository test `test_backward_compatibility`,
`{Required(Any(color, temperature)): str, Optional(color): str,
Optional(temperature): int}`.  The converter emits no `anyOf`
presence-group alternatives at all: the `Required(Any(...))` key is
routed through the non-string-key branch (source lines 84-92), so the
stringified marker lands in `required` and the group's value fragment
becomes `additionalProperties` — the repository's own test expects
`required = []` and a two-element `anyOf` instead. -/
theorem c1_presence_group_code_eval :
    convert none (.mapping
      [(.req (.pother "Any(color, temperature, msg=None)") none none, .ptype .tstr),
       (.opt (.pstr "color") none none, .ptype .tstr),
       (.opt (.pstr "temperature") none none, .ptype .tint)]) =
    .ok [("type", Val.vstr "object"),
         ("properties", Val.vobj
            [("color", Val.vobj [("type", Val.vstr "string")]),
             ("temperature", Val.vobj [("type", Val.vstr "integer")])]),
         ("required", Val.vlist [Val.vstr "Any(color, temperature, msg=None)"]),
         ("additionalProperties", Val.vobj [("type", Val.vstr "string")])]
  ∧ lookupF "anyOf"
      [("type", Val.vstr "object"),
       ("properties", Val.vobj
          [("color", Val.vobj [("type", Val.vstr "string")]),
           ("temperature", Val.vobj [("type", Val.vstr "integer")])]),
       ("required", Val.vlist [Val.vstr "Any(color, temperature, msg=None)"]),
       ("additionalProperties", Val.vobj [("type", Val.vstr "string")])] = none
  ∧ Val.vlist [Val.vstr "Any(color, temperature, msg=None)"] ≠ Val.vlist [] :=
  ⟨rfl, rfl, by decide⟩

/-- C2 (code evaluation at the failing input): a bare presence-group
key with the Wildcard value, `{Any(a, b): object}`, where neither
member key is declared anywhere else.  The converter stores the
converted Wildcard fragment — which carries `type: object` — as the
property of both member keys (source lines 72-81), instead of leaving
them untyped as the specification and the repository's
presence-group tests require. -/
theorem c2_wildcard_group_code_eval :
    convert none (.mapping [(.anyK [⟨"a", none⟩, ⟨"b", none⟩], .ptype .tobject)]) =
    .ok [("type", Val.vstr "object"),
         ("properties", Val.vobj
            [("a", Val.vobj wildcardFrag), ("b", Val.vobj wildcardFrag)]),
         ("required", Val.vlist [])]
  ∧ containsKeyF "type" wildcardFrag = true :=
  ⟨rfl, rfl⟩

/-- C9: the custom serializer is consulted before any built-in rule
(source lines 38-41); whenever it returns a non-sentinel result, that
result is returned verbatim, with no recursion into the node. -/
theorem c9_custom_serializer_first :
    ∀ (f : CSer) (s : Schema) (r : Fragment),
      f s = some r → convert (some f) s = .ok r := by
  intro f s r h
  cases s <;> try simp [convert, hookApply, h]
  case seq es =>
      cases es with
      | nil => simp [convert, hookApply, h]
      | cons a rest => cases rest <;> simp [convert, hookApply, h]
  case dictAnn k vo => cases vo <;> simp [convert, hookApply, h]

/-- Closed instance of `c9_custom_serializer_first`: a serializer that
overrides even an unconvertible node, showing built-in rules (and the
fall-through failure) are preempted. -/
theorem c9_custom_serializer_first_witness :
    convert (some (fun _ => some [("type", Val.vstr "custom")])) .unknown =
      .ok [("type", Val.vstr "custom")] :=
  c9_custom_serializer_first (fun _ => some [("type", Val.vstr "custom")]) .unknown
    [("type", Val.vstr "custom")] rfl

/-- C10: when the serializer defers on a `dict[K, V]` annotation whose
value type is neither `typing.Any` nor a `TypeVar`, `convert` recurses
into the constructed mapping without forwarding the serializer (source
line 255) — the right-hand side is a conversion with no serializer at
all, so the hook is never consulted for `K`, `V` or anything nested in
them; when the value type is `Any` or a `TypeVar` the annotation
converts as a plain permissive `dict` (lines 251-253, 257-259). -/
theorem c10_dict_annotation_serializer :
    (∀ (f : CSer) (k v : Schema),
        f (.dictAnn k (some v)) = none →
        convert (some f) (.dictAnn k (some v)) =
          convert none (.mapping [(.plainK (.pother "K"), v)]))
  ∧ (∀ (f : CSer) (k : Schema),
        f (.dictAnn k none) = none →
        convert (some f) (.dictAnn k none) = .ok wildcardFrag) := by
  constructor
  · intro f k v h
    rw [convert_dict_value_mapping v "K"]
    simp [convert, hookApply, h]
  · intro f k h
    simp [convert, hookApply, h]

/-- Closed instance of `c10_dict_annotation_serializer` at
`dict[str, int]` with a serializer that defers on the annotation. -/
theorem c10_dict_annotation_serializer_witness :
    convert (some (fun _ => none)) (.dictAnn (.ptype .tstr) (some (.ptype .tint))) =
      convert none (.mapping [(.plainK (.pother "K"), .ptype .tint)])
  ∧ convert (some (fun _ => none)) (.dictAnn (.ptype .tstr) none) = .ok wildcardFrag :=
  ⟨c10_dict_annotation_serializer.1 (fun _ => none) (.ptype .tstr) (.ptype .tint) rfl,
   c10_dict_annotation_serializer.2 (fun _ => none) (.ptype .tstr) rfl⟩


theorem containsKeyF_of_mem (p : String × Val) (f : Fragment) (h : p ∈ f) :
    containsKeyF p.1 f = true := by
  simp only [containsKeyF, List.any_eq_true]
  exact ⟨p, h, by simp⟩

theorem containsKeyF_mem_iff (k : String) (f : Fragment) :
    containsKeyF k f = true ↔ ∃ p ∈ f, p.1 = k := by
  simp [containsKeyF, List.any_eq_true]

theorem containsKeyF_insertF_iff (k k2 : String) (v : Val) (f : Fragment) :
    containsKeyF k (insertF k2 v f) = true ↔ k = k2 ∨ containsKeyF k f = true := by
  induction f with
  | nil =>
      simp only [insertF, containsKeyF_cons, containsKeyF_nil]
      constructor
      · intro h
        simp at h
        exact Or.inl h.symm
      · intro h
        rcases h with h | h
        · simp [h]
        · simp at h
  | cons p rest ih =>
      cases p with
      | mk k3 v3 =>
          by_cases h : k3 = k2
          · subst h
            simp only [insertF, if_pos rfl, containsKeyF_cons]
            constructor
            · intro hh
              rcases Bool.or_eq_true_iff.mp hh with hh | hh
              · exact Or.inl (of_decide_eq_true hh).symm
              · exact Or.inr (Bool.or_eq_true_iff.mpr (Or.inr hh))
            · intro hh
              rcases hh with hh | hh
              · subst hh
                simp [containsKeyF_cons]
              · rcases Bool.or_eq_true_iff.mp hh with hh | hh
                · exact Bool.or_eq_true_iff.mpr (Or.inl hh)
                · exact Bool.or_eq_true_iff.mpr (Or.inr hh)
          · simp only [insertF, if_neg h, containsKeyF_cons]
            constructor
            · intro hh
              rcases Bool.or_eq_true_iff.mp hh with hh | hh
              · exact Or.inr (Bool.or_eq_true_iff.mpr (Or.inl hh))
              · rcases (ih.mp hh) with hh | hh
                · exact Or.inl hh
                · exact Or.inr (Bool.or_eq_true_iff.mpr (Or.inr hh))
            · intro hh
              rcases hh with hh | hh
              · exact Bool.or_eq_true_iff.mpr (Or.inr (ih.mpr (Or.inl hh)))
              · rcases Bool.or_eq_true_iff.mp hh with hh | hh
                · exact Bool.or_eq_true_iff.mpr (Or.inl hh)
                · exact Bool.or_eq_true_iff.mpr (Or.inr (ih.mpr (Or.inr hh)))

theorem containsKeyF_updateF_iff (k : String) (d e : Fragment) :
    containsKeyF k (updateF d e) = true ↔
      containsKeyF k d = true ∨ containsKeyF k e = true := by
  induction e generalizing d with
  | nil => simp [updateF, containsKeyF_nil]
  | cons p e2 ih =>
      cases p with
      | mk k2 v2 =>
          show containsKeyF k (updateF (insertF k2 v2 d) e2) = true ↔ _
          rw [ih, containsKeyF_insertF_iff, containsKeyF_cons]
          constructor
          · intro hh
            rcases hh with (hh | hh) | hh
            · exact Or.inr (Bool.or_eq_true_iff.mpr (Or.inl (by simp [hh])))
            · exact Or.inl hh
            · exact Or.inr (Bool.or_eq_true_iff.mpr (Or.inr hh))
          · intro hh
            rcases hh with hh | hh
            · exact Or.inl (Or.inr hh)
            · rcases Bool.or_eq_true_iff.mp hh with hh | hh
              · exact Or.inl (Or.inl (of_decide_eq_true hh).symm)
              · exact Or.inr hh

theorem containsKeyF_foldl_updateF (k : String) (l : List Fragment) (d : Fragment) :
    containsKeyF k (l.foldl updateF d) = true ↔
      containsKeyF k d = true ∨ ∃ a ∈ l, containsKeyF k a = true := by
  induction l generalizing d with
  | nil => simp
  | cons a l2 ih =>
      simp only [List.foldl_cons]
      rw [ih, containsKeyF_updateF_iff]
      simp only [List.mem_cons]
      constructor
      · intro hh
        rcases hh with (hh | hh) | ⟨b, hb, hkb⟩
        · exact Or.inl hh
        · exact Or.inr ⟨a, Or.inl rfl, hh⟩
        · exact Or.inr ⟨b, Or.inr hb, hkb⟩
      · intro hh
        rcases hh with hh | ⟨b, hb, hkb⟩
        · exact Or.inl (Or.inl hh)
        · rcases hb with hb | hb
          · subst hb
            exact Or.inl (Or.inr hkb)
          · exact Or.inr ⟨b, hb, hkb⟩

theorem keysIntersect_iff (a b : Fragment) :
    keysIntersect a b = true ↔
      ∃ k, containsKeyF k a = true ∧ containsKeyF k b = true := by
  constructor
  · intro h
    simp only [keysIntersect, List.any_eq_true] at h
    obtain ⟨p, hp, hk⟩ := h
    exact ⟨p.1, containsKeyF_of_mem p a hp, hk⟩
  · intro ⟨k, hka, hkb⟩
    simp only [keysIntersect, List.any_eq_true]
    rw [containsKeyF_mem_iff] at hka
    obtain ⟨p, hp, hpk⟩ := hka
    exact ⟨p, hp, by rw [hpk]; exact hkb⟩

theorem allStep_skip (st : Fragment × Bool × List Fragment) (v : Fragment)
    (h : v = [] ∨ v ∈ st.2.2 ∨ v = wildcardFrag) : allStep st v = st := by
  unfold allStep
  rw [if_pos h]

theorem allStep_accept (val : Fragment) (fb : Bool) (acc : List Fragment) (v : Fragment)
    (h : ¬(v = [] ∨ v ∈ acc ∨ v = wildcardFrag)) :
    allStep (val, fb, acc) v =
      (if (fb || keysIntersect v val) = true then val else updateF val v,
       fb || keysIntersect v val, acc ++ [v]) := by
  unfold allStep
  rw [if_neg h]

theorem allFold_inv (l : List Fragment) :
    ∀ (val : Fragment) (fb : Bool) (acc : List Fragment),
      (fb = false → val = acc.foldl updateF [] ∧
          acc.Pairwise (fun a b => keysIntersect a b = false)) →
      (fb = true → ¬ acc.Pairwise (fun a b => keysIntersect a b = false)) →
      AllInv (l.foldl allStep (val, fb, acc)) := by
  induction l with
  | nil =>
      intro val fb acc h1 h2
      exact ⟨h1, h2⟩
  | cons a l2 ih =>
      intro val fb acc h1 h2
      rw [List.foldl_cons]
      by_cases hskip : a = [] ∨ a ∈ acc ∨ a = wildcardFrag
      · rw [allStep_skip (val, fb, acc) a hskip]
        exact ih val fb acc h1 h2
      · rw [allStep_accept val fb acc a hskip]
        cases fb with
        | true =>
            have hnpw := h2 rfl
            rw [Bool.true_or, if_pos rfl]
            refine ih val true (acc ++ [a]) (fun hc => absurd hc (by simp)) ?_
            intro _ hpw2
            rw [List.pairwise_append] at hpw2
            exact hnpw hpw2.1
        | false =>
            obtain ⟨hval, hpw⟩ := h1 rfl
            rw [Bool.false_or]
            by_cases hint : keysIntersect a val = true
            · rw [hint, if_pos rfl]
              refine ih val true (acc ++ [a]) (fun hc => absurd hc (by simp)) ?_
              intro _ hpw2
              rw [keysIntersect_iff] at hint
              obtain ⟨k, hka, hkval⟩ := hint
              rw [hval, containsKeyF_foldl_updateF] at hkval
              rcases hkval with h0 | ⟨b, hb, hkb⟩
              · rw [containsKeyF_nil] at h0
                exact Bool.false_ne_true h0
              · rw [List.pairwise_append] at hpw2
                have hfalse := hpw2.2.2 b hb a (by simp)
                have htrue : keysIntersect b a = true :=
                  (keysIntersect_iff b a).mpr ⟨k, hkb, hka⟩
                rw [hfalse] at htrue
                exact Bool.false_ne_true htrue
            · replace hint : keysIntersect a val = false := by simpa using hint
              rw [hint, if_neg (by simp)]
              refine ih (updateF val a) false (acc ++ [a]) ?_ (fun hc => absurd hc (by simp))
              intro _
              constructor
              · rw [List.foldl_append]
                simp only [List.foldl_cons, List.foldl_nil]
                rw [hval]
              · rw [List.pairwise_append]
                refine ⟨hpw, by simp, ?_⟩
                intro b hb c hc
                simp only [List.mem_singleton] at hc
                subst hc
                by_contra hba
                replace hba : keysIntersect b c = true := by simpa using hba
                rw [keysIntersect_iff] at hba
                obtain ⟨k, hkb, hka2⟩ := hba
                have hkval : containsKeyF k val = true := by
                  rw [hval, containsKeyF_foldl_updateF]
                  exact Or.inr ⟨b, hb, hkb⟩
                have hcontr : keysIntersect c val = true :=
                  (keysIntersect_iff c val).mpr ⟨k, hka2, hkval⟩
                rw [hint] at hcontr
                exact Bool.false_ne_true hcontr

theorem allRun_inv (fs : List Fragment) : AllInv (allRun fs) :=
  allFold_inv fs [] false []
    (fun _ => ⟨rfl, List.Pairwise.nil⟩)
    (fun hc => by simp at hc)

/-- C3 statement (see main file). -/
theorem c3_intersection_merge :
    (∀ (st : Fragment × Bool × List Fragment) (v : Fragment),
        v = [] ∨ v ∈ st.2.2 ∨ v = wildcardFrag → allStep st v = st)
  ∧ (∀ vs : List Schema,
        convert none (.sAll vs) =
          match convList none vs with
          | .error e => .error e
          | .ok fs => .ok (allFinish (allRun fs)))
  ∧ (∀ fs : List Fragment,
        (acceptedOf fs).Pairwise (fun a b => keysIntersect a b = false) →
        allFinish (allRun fs) = ensureDefault ((acceptedOf fs).foldl updateF []))
  ∧ (∀ fs : List Fragment,
        ¬ (acceptedOf fs).Pairwise (fun a b => keysIntersect a b = false) →
        allFinish (allRun fs) = [("allOf", Val.vlist ((acceptedOf fs).map Val.vobj))]) := by
  refine ⟨allStep_skip, ?_, ?_, ?_⟩
  · intro vs
    cases hc : convList none vs with
    | error e => simp [convert, hookApply, hc]
    | ok fs => simp [convert, hookApply, hc]
  · intro fs hpw
    obtain ⟨h1, h2⟩ := allRun_inv fs
    cases hfb : (allRun fs).2.1 with
    | true => exact absurd hpw (h2 hfb)
    | false =>
        obtain ⟨hval, _⟩ := h1 hfb
        unfold allFinish
        rw [hfb, if_neg (by simp), hval]
        rfl
  · intro fs hpw
    obtain ⟨h1, h2⟩ := allRun_inv fs
    cases hfb : (allRun fs).2.1 with
    | false => exact absurd (h1 hfb).2 hpw
    | true =>
        unfold allFinish
        rw [hfb, if_pos rfl]
        rfl

theorem c3_intersection_merge_witness :
    allStep ([("type", Val.vstr "integer")], false, [[("type", Val.vstr "integer")]])
        [("type", Val.vstr "integer")]
      = ([("type", Val.vstr "integer")], false, [[("type", Val.vstr "integer")]])
  ∧ allFinish (allRun [[("type", Val.vstr "integer")], [("minimum", Val.vint 1)]])
      = ensureDefault
          ((acceptedOf [[("type", Val.vstr "integer")], [("minimum", Val.vint 1)]]).foldl
            updateF [])
  ∧ allFinish (allRun [[("minimum", Val.vint 1)], [("minimum", Val.vint 3)]])
      = [("allOf", Val.vlist
          ((acceptedOf [[("minimum", Val.vint 1)], [("minimum", Val.vint 3)]]).map
            Val.vobj))] :=
  ⟨c3_intersection_merge.1 _ _ (Or.inr (Or.inl (by decide))),
   c3_intersection_merge.2.2.1 _ (by decide),
   c3_intersection_merge.2.2.2 _ (by decide)⟩


theorem containsKeyF_insertF_self (k : String) (v : Val) (f : Fragment) :
    containsKeyF k (insertF k v f) = true :=
  (containsKeyF_insertF_iff k k v f).mpr (Or.inl rfl)

theorem hasShapeKeyword_ensureDefault (f : Fragment) :
    hasShapeKeyword (ensureDefault f) = true := by
  unfold ensureDefault
  split
  · simp [hasShapeKeyword, containsKeyF_insertF_self]
  · next h =>
      by_contra hc
      apply h
      simp only [hasShapeKeyword, Bool.or_eq_true, not_or, Bool.not_eq_true] at hc
      exact ⟨hc.1.1.1.1, hc.1.1.1.2, hc.1.1.2, hc.1.2, hc.2⟩

theorem hasShapeKeyword_insertF (k : String) (v : Val) (f : Fragment)
    (h : hasShapeKeyword f = true) : hasShapeKeyword (insertF k v f) = true := by
  simp only [hasShapeKeyword, Bool.or_eq_true] at h ⊢
  rcases h with ((((h | h) | h) | h) | h)
  · exact Or.inl (Or.inl (Or.inl (Or.inl ((containsKeyF_insertF_iff _ k v f).mpr (Or.inr h)))))
  · exact Or.inl (Or.inl (Or.inl (Or.inr ((containsKeyF_insertF_iff _ k v f).mpr (Or.inr h)))))
  · exact Or.inl (Or.inl (Or.inr ((containsKeyF_insertF_iff _ k v f).mpr (Or.inr h))))
  · exact Or.inl (Or.inr ((containsKeyF_insertF_iff _ k v f).mpr (Or.inr h)))
  · exact Or.inr ((containsKeyF_insertF_iff _ k v f).mpr (Or.inr h))

theorem mem_insertF (p : String × Val) (k : String) (v : Val) (f : Fragment)
    (h : p ∈ insertF k v f) : (p.1 = k ∧ p.2 = v) ∨ p ∈ f := by
  induction f with
  | nil =>
      simp only [insertF, List.mem_singleton] at h
      subst h
      exact Or.inl ⟨rfl, rfl⟩
  | cons q rest ih =>
      cases q with
      | mk k2 v2 =>
          by_cases hk : k2 = k
          · subst hk
            simp [insertF] at h
            rcases h with h | h
            · subst h
              exact Or.inl ⟨rfl, rfl⟩
            · exact Or.inr (List.mem_cons_of_mem _ h)
          · simp only [insertF, if_neg hk, List.mem_cons] at h
            rcases h with h | h
            · subst h
              exact Or.inr (List.mem_cons_self _ _)
            · rcases ih h with h2 | h2
              · exact Or.inl h2
              · exact Or.inr (List.mem_cons_of_mem _ h2)

theorem anyKeyProps_ok (items : List AnyItem) (pval : Fragment)
    (hpval : hasShapeKeyword pval = true) :
    ∀ props : Fragment,
      (∀ p ∈ props, ∃ g, p.2 = Val.vobj g ∧ hasShapeKeyword g = true) →
      ∀ p ∈ anyKeyProps items pval props,
        ∃ g, p.2 = Val.vobj g ∧ hasShapeKeyword g = true := by
  induction items with
  | nil =>
      intro props h p hp
      exact h p hp
  | cons it items2 ih =>
      intro props h p hp
      unfold anyKeyProps at hp
      rw [List.foldl_cons] at hp
      refine ih _ ?_ p hp
      intro q hq
      cases hdesc : it.description with
      | none =>
          rw [hdesc] at hq
          dsimp only at hq
          rcases mem_insertF q it.name (Val.vobj pval) props hq with ⟨_, hqv⟩ | hq2
          · exact ⟨pval, hqv, hpval⟩
          · exact h q hq2
      | some d =>
          rw [hdesc] at hq
          dsimp only at hq
          by_cases hd : d ≠ ""
          · rw [if_pos hd] at hq
            rcases mem_insertF q it.name _ props hq with ⟨_, hqv⟩ | hq2
            · exact ⟨insertF "description" (Val.vstr d) pval, hqv,
                hasShapeKeyword_insertF _ _ _ hpval⟩
            · exact h q hq2
          · rw [if_neg hd] at hq
            rcases mem_insertF q it.name (Val.vobj pval) props hq with ⟨_, hqv⟩ | hq2
            · exact ⟨pval, hqv, hpval⟩
            · exact h q hq2

theorem convPairs_props_ok (cs : Option CSer) :
    ∀ (l : List (MKey × Schema)) (props : Fragment) (req : List Val) (ap : Option Val)
      (st : Fragment × List Val × Option Val),
      (∀ p ∈ props, ∃ g, p.2 = Val.vobj g ∧ hasShapeKeyword g = true) →
      convPairs cs l props req ap = .ok st →
      ∀ p ∈ st.1, ∃ g, p.2 = Val.vobj g ∧ hasShapeKeyword g = true := by
  intro l
  induction l with
  | nil =>
      intro props req ap st h hconv
      simp only [convPairs, Except.ok.injEq] at hconv
      subst hconv
      exact h
  | cons pair rest ih =>
      intro props req ap st h hconv
      obtain ⟨key, value⟩ := pair
      unfold convPairs at hconv
      cases hc : convert cs value with
      | error e => rw [hc] at hconv; exact absurd hconv (by simp)
      | ok pv0 =>
          rw [hc] at hconv
          simp only at hconv
          cases key with
          | anyK items =>
              refine ih _ _ _ st ?_ hconv
              exact anyKeyProps_ok items _ (hasShapeKeyword_ensureDefault _) props h
          | req pk dsc dv =>
              cases pk with
              | pstr name =>
                  refine ih _ _ _ st ?_ hconv
                  intro q hq
                  rcases mem_insertF q name _ props hq with ⟨_, hqv⟩ | hq2
                  · exact ⟨_, hqv, hasShapeKeyword_ensureDefault _⟩
                  · exact h q hq2
              | pother r => exact ih _ _ _ st h hconv
          | opt pk dsc dv =>
              cases pk with
              | pstr name =>
                  refine ih _ _ _ st ?_ hconv
                  intro q hq
                  rcases mem_insertF q name _ props hq with ⟨_, hqv⟩ | hq2
                  · exact ⟨_, hqv, hasShapeKeyword_ensureDefault _⟩
                  · exact h q hq2
              | pother r => exact ih _ _ _ st h hconv
          | plainK pk =>
              cases pk with
              | pstr name =>
                  refine ih _ _ _ st ?_ hconv
                  intro q hq
                  rcases mem_insertF q name _ props hq with ⟨_, hqv⟩ | hq2
                  · exact ⟨_, hqv, hasShapeKeyword_ensureDefault _⟩
                  · exact h q hq2
              | pother r => exact ih _ _ _ st h hconv

theorem lookupF_properties_assembleMap (props : Fragment) (req : List Val)
    (ap : Option Val) (ps : List (String × Val))
    (h : lookupF "properties" (assembleMap props req ap) = some (Val.vobj ps)) :
    ps = props := by
  unfold assembleMap at h
  split at h
  · cases ap with
    | none => simp [truthyV, lookupF, insertF] at h; exact h.symm
    | some a =>
        by_cases ht : truthyV (some a) = true
        · rw [if_pos ht] at h
          simp [lookupF, insertF] at h
          exact h.symm
        · rw [if_neg ht] at h
          simp [lookupF, insertF] at h
          exact h.symm
  · cases ap with
    | none => simp [truthyV, lookupF] at h
    | some a =>
        by_cases ht : truthyV (some a) = true
        · rw [if_pos ht] at h
          simp [lookupF, insertF] at h
        · rw [if_neg ht] at h
          simp [lookupF] at h


/-- C7 (claim refuted): a bare numeric-range node converted on its own
yields `{"minimum": 1, "maximum": 2}` — a shape-constraining fragment
carrying none of `type`, `anyOf`, `oneOf`, `allOf`, `not` (nor `enum`);
the `vol.Range` branch (source lines 124-136) returns without the
`ensure_default` treatment. -/
theorem c7_untyped_range_counterexample :
    convert none (.range (some 1) (some 2) true true) =
      .ok [("minimum", Val.vint 1), ("maximum", Val.vint 2)]
  ∧ hasShapeKeyword [("minimum", Val.vint 1), ("maximum", Val.vint 2)] = false
  ∧ containsKeyF "enum" [("minimum", Val.vint 1), ("maximum", Val.vint 2)] = false :=
  ⟨rfl, rfl, rfl⟩

/-- C7 amended: the fallback type is inserted only where the source
applies `ensure_default` — in particular to every property fragment of
a converted Mapping: each value stored in the `properties` map of a
mapping conversion carries one of `type`, `anyOf`, `oneOf`, `allOf`,
`not`.  Fragments returned directly by the bare constraint translators
(numeric range, length, pattern) can reach the consumer untyped, as the
counterexample shows. -/
theorem c7_mapping_properties_typed :
    ∀ (pairs : List (MKey × Schema)) (frag : Fragment) (props : List (String × Val)),
      convert none (.mapping pairs) = .ok frag →
      lookupF "properties" frag = some (Val.vobj props) →
      ∀ p ∈ props, ∃ g, p.2 = Val.vobj g ∧ hasShapeKeyword g = true := by
  intro pairs frag props hconv hlook p hp
  simp only [convert, hookApply] at hconv
  cases hcp : convPairs none pairs [] [] none with
  | error e =>
      rw [hcp] at hconv
      exact absurd hconv (by simp)
  | ok st =>
      rw [hcp] at hconv
      simp only [Except.ok.injEq] at hconv
      subst hconv
      have hps := lookupF_properties_assembleMap st.1 st.2.1 st.2.2 props hlook
      subst hps
      exact convPairs_props_ok none pairs [] [] none st (by simp) hcp p hp

/-- Closed instance of `c7_mapping_properties_typed`: the mapping
`{"a": Range(1, 2)}`, whose single property fragment gets the fallback
`type: "string"` appended by `ensure_default`. -/
theorem c7_mapping_properties_typed_witness :
    ∃ g, (Val.vobj [("minimum", Val.vint 1), ("maximum", Val.vint 2),
            ("type", Val.vstr "string")]) = Val.vobj g ∧ hasShapeKeyword g = true :=
  c7_mapping_properties_typed
    [(.plainK (.pstr "a"), .range (some 1) (some 2) true true)]
    [("type", Val.vstr "object"),
     ("properties", Val.vobj
        [("a", Val.vobj [("minimum", Val.vint 1), ("maximum", Val.vint 2),
            ("type", Val.vstr "string")])]),
     ("required", Val.vlist [])]
    [("a", Val.vobj [("minimum", Val.vint 1), ("maximum", Val.vint 2),
        ("type", Val.vstr "string")])]
    (by rfl) (by rfl)
    ("a", Val.vobj [("minimum", Val.vint 1), ("maximum", Val.vint 2),
        ("type", Val.vstr "string")])
    (by simp)


/-! Definitional equations of `convert`, one per dispatched node shape,
used to reason about the converter symbolically. -/

theorem convert_eq_mapping (cs : Option CSer) (pairs : List (MKey × Schema)) :
    convert cs (.mapping pairs) =
      match hookApply cs (.mapping pairs) with
      | some r => .ok r
      | none =>
          match convPairs cs pairs [] [] none with
          | .error e => .error e
          | .ok st => .ok (assembleMap st.1 st.2.1 st.2.2) := by
  cases hh : hookApply cs (.mapping pairs) <;> simp [convert, hh]

theorem convert_eq_sAll (cs : Option CSer) (vs : List Schema) :
    convert cs (.sAll vs) =
      match hookApply cs (.sAll vs) with
      | some r => .ok r
      | none =>
          match convList cs vs with
          | .error e => .error e
          | .ok fs => .ok (allFinish (allRun fs)) := by
  cases hh : hookApply cs (.sAll vs) <;> simp [convert, hh]

theorem convert_eq_sAny (cs : Option CSer) (vs : List Schema) :
    convert cs (.sAny vs) =
      match hookApply cs (.sAny vs) with
      | some r => .ok r
      | none =>
          match convMembers cs vs with
          | .error e => .error e
          | .ok ps =>
              .ok (applyNullable (vs.any isNullS)
                (anyResult (ps.filterMap (fun p => if p.1 then none else some p.2)))) := by
  cases hh : hookApply cs (.sAny vs) <;> simp [convert, hh]

theorem convert_eq_clamp (cs : Option CSer) (lo hi : Option Int) :
    convert cs (.clamp lo hi) =
      match hookApply cs (.clamp lo hi) with
      | some r => .ok r
      | none => .ok (rangeFrag lo hi true true) := by
  cases hh : hookApply cs (.clamp lo hi) <;> simp [convert, hh]

theorem convert_eq_range (cs : Option CSer) (lo hi : Option Int) (loI hiI : Bool) :
    convert cs (.range lo hi loI hiI) =
      match hookApply cs (.range lo hi loI hiI) with
      | some r => .ok r
      | none => .ok (rangeFrag lo hi loI hiI) := by
  cases hh : hookApply cs (.range lo hi loI hiI) <;> simp [convert, hh]

theorem convert_eq_length (cs : Option CSer) (lo hi : Option Int) :
    convert cs (.length lo hi) =
      match hookApply cs (.length lo hi) with
      | some r => .ok r
      | none => .ok (lengthFrag lo hi) := by
  cases hh : hookApply cs (.length lo hi) <;> simp [convert, hh]

theorem convert_eq_datetime (cs : Option CSer) :
    convert cs .datetime =
      match hookApply cs .datetime with
      | some r => .ok r
      | none => .ok [("type", Val.vstr "string"), ("format", Val.vstr "date-time")] := by
  cases hh : hookApply cs .datetime <;> simp [convert, hh]

theorem convert_eq_matchP (cs : Option CSer) (p : String) :
    convert cs (.matchP p) =
      match hookApply cs (.matchP p) with
      | some r => .ok r
      | none => .ok [("pattern", Val.vstr p)] := by
  cases hh : hookApply cs (.matchP p) <;> simp [convert, hh]

theorem convert_eq_inC (cs : Option CSer) (vals : List Val) :
    convert cs (.inC vals) =
      match hookApply cs (.inC vals) with
      | some r => .ok r
      | none => .ok [("type", Val.vstr (enumTypeOf vals)), ("enum", Val.vlist vals)] := by
  cases hh : hookApply cs (.inC vals) <;> simp [convert, hh]

theorem convert_eq_fmt (cs : Option CSer) (n : String) :
    convert cs (.fmt n) =
      match hookApply cs (.fmt n) with
      | some r => .ok r
      | none => .ok [("format", Val.vstr n)] := by
  cases hh : hookApply cs (.fmt n) <;> simp [convert, hh]

theorem convert_eq_coerce (cs : Option CSer) (t : PyType) :
    convert cs (.coerce t) =
      match hookApply cs (.coerce t) with
      | some r => .ok r
      | none => .ok (convertPyType t) := by
  cases hh : hookApply cs (.coerce t) <;> simp [convert, hh]

theorem convert_eq_lit (cs : Option CSer) (v : LitVal) :
    convert cs (.lit v) =
      match hookApply cs (.lit v) with
      | some r => .ok r
      | none => .ok [("enum", Val.vlist [litToVal v])] := by
  cases hh : hookApply cs (.lit v) <;> simp [convert, hh]

theorem convert_eq_listAnn (cs : Option CSer) (a : Schema) :
    convert cs (.listAnn a) =
      match hookApply cs (.listAnn a) with
      | some r => .ok r
      | none =>
          match convert cs a with
          | .error e => .error e
          | .ok f =>
              .ok [("type", Val.vstr "array"), ("items", Val.vobj (ensureDefault f))] := by
  cases hh : hookApply cs (.listAnn a) <;> simp [convert, hh]

theorem convert_eq_seq_nil (cs : Option CSer) :
    convert cs (.seq []) =
      match hookApply cs (.seq []) with
      | some r => .ok r
      | none => .error .attrError := by
  cases hh : hookApply cs (.seq []) <;> simp [convert, hh]

theorem convert_eq_seq_single (cs : Option CSer) (x : Schema) :
    convert cs (.seq [x]) =
      match hookApply cs (.seq [x]) with
      | some r => .ok r
      | none =>
          match convert cs x with
          | .error e => .error e
          | .ok f =>
              .ok [("type", Val.vstr "array"), ("items", Val.vobj (ensureDefault f))] := by
  cases hh : hookApply cs (.seq [x]) <;> simp [convert, hh]

theorem convert_eq_seq_multi (cs : Option CSer) (x y : Schema) (rest : List Schema) :
    convert cs (.seq (x :: y :: rest)) =
      match hookApply cs (.seq (x :: y :: rest)) with
      | some r => .ok r
      | none => .error .attrError := by
  cases hh : hookApply cs (.seq (x :: y :: rest)) <;> simp [convert, hh]

theorem convert_eq_ptype (cs : Option CSer) (t : PyType) :
    convert cs (.ptype t) =
      match hookApply cs (.ptype t) with
      | some r => .ok r
      | none => .ok (convertPyType t) := by
  cases hh : hookApply cs (.ptype t) <;> simp [convert, hh]

theorem convert_eq_dictAnn_none (cs : Option CSer) (k : Schema) :
    convert cs (.dictAnn k none) =
      match hookApply cs (.dictAnn k none) with
      | some r => .ok r
      | none => .ok wildcardFrag := by
  cases hh : hookApply cs (.dictAnn k none) <;> simp [convert, hh]

theorem convert_eq_dictAnn_some (cs : Option CSer) (k v : Schema) :
    convert cs (.dictAnn k (some v)) =
      match hookApply cs (.dictAnn k (some v)) with
      | some r => .ok r
      | none =>
          match convert none v with
          | .error e => .error e
          | .ok f => .ok (dictAnnAssemble f) := by
  cases hh : hookApply cs (.dictAnn k (some v)) <;> simp [convert, hh]

theorem convert_eq_unknown (cs : Option CSer) :
    convert cs .unknown =
      match hookApply cs .unknown with
      | some r => .ok r
      | none => .error .unconvertible := by
  cases hh : hookApply cs .unknown <;> simp [convert, hh]


mutual

theorem convert_unconvertible_hasUnknown :
    ∀ (cs : Option CSer) (s : Schema),
      convert cs s = .error .unconvertible → hasUnknown s = true
  | cs, .mapping pairs => by
      intro h
      rw [convert_eq_mapping] at h
      cases hh : hookApply cs (.mapping pairs) <;> rw [hh] at h
      · dsimp only at h
        cases hcp : convPairs cs pairs [] [] none with
        | error e =>
            rw [hcp] at h
            dsimp only at h
            simp only [Except.error.injEq] at h
            subst h
            simpa [hasUnknown] using
              convPairs_unconvertible_hasUnknown cs pairs [] [] none hcp
        | ok st => rw [hcp] at h; simp at h
      · simp at h
  | cs, .sAll vs => by
      intro h
      rw [convert_eq_sAll] at h
      cases hh : hookApply cs (.sAll vs) <;> rw [hh] at h
      · dsimp only at h
        cases hcl : convList cs vs with
        | error e =>
            rw [hcl] at h
            dsimp only at h
            simp only [Except.error.injEq] at h
            subst h
            simpa [hasUnknown] using convList_unconvertible_hasUnknown cs vs hcl
        | ok fs => rw [hcl] at h; simp at h
      · simp at h
  | cs, .clamp lo hi => by
      intro h
      rw [convert_eq_clamp] at h
      cases hh : hookApply cs (.clamp lo hi) <;> rw [hh] at h <;> simp at h
  | cs, .range lo hi loI hiI => by
      intro h
      rw [convert_eq_range] at h
      cases hh : hookApply cs (.range lo hi loI hiI) <;> rw [hh] at h <;> simp at h
  | cs, .length lo hi => by
      intro h
      rw [convert_eq_length] at h
      cases hh : hookApply cs (.length lo hi) <;> rw [hh] at h <;> simp at h
  | cs, .datetime => by
      intro h
      rw [convert_eq_datetime] at h
      cases hh : hookApply cs .datetime <;> rw [hh] at h <;> simp at h
  | cs, .matchP p => by
      intro h
      rw [convert_eq_matchP] at h
      cases hh : hookApply cs (.matchP p) <;> rw [hh] at h <;> simp at h
  | cs, .inC vals => by
      intro h
      rw [convert_eq_inC] at h
      cases hh : hookApply cs (.inC vals) <;> rw [hh] at h <;> simp at h
  | cs, .fmt n => by
      intro h
      rw [convert_eq_fmt] at h
      cases hh : hookApply cs (.fmt n) <;> rw [hh] at h <;> simp at h
  | cs, .sAny vs => by
      intro h
      rw [convert_eq_sAny] at h
      cases hh : hookApply cs (.sAny vs) <;> rw [hh] at h
      · dsimp only at h
        cases hcm : convMembers cs vs with
        | error e =>
            rw [hcm] at h
            dsimp only at h
            simp only [Except.error.injEq] at h
            subst h
            simpa [hasUnknown] using convMembers_unconvertible_hasUnknown cs vs hcm
        | ok ps => rw [hcm] at h; simp at h
      · simp at h
  | cs, .coerce t => by
      intro h
      rw [convert_eq_coerce] at h
      cases hh : hookApply cs (.coerce t) <;> rw [hh] at h <;> simp at h
  | cs, .lit v => by
      intro h
      rw [convert_eq_lit] at h
      cases hh : hookApply cs (.lit v) <;> rw [hh] at h <;> simp at h
  | cs, .listAnn a => by
      intro h
      rw [convert_eq_listAnn] at h
      cases hh : hookApply cs (.listAnn a) <;> rw [hh] at h
      · dsimp only at h
        cases hc : convert cs a with
        | error e =>
            rw [hc] at h
            dsimp only at h
            simp only [Except.error.injEq] at h
            subst h
            simpa [hasUnknown] using convert_unconvertible_hasUnknown cs a hc
        | ok f => rw [hc] at h; simp at h
      · simp at h
  | cs, .seq [] => by
      intro h
      rw [convert_eq_seq_nil] at h
      cases hh : hookApply cs (.seq []) <;> rw [hh] at h <;> simp at h
  | cs, .seq [x] => by
      intro h
      rw [convert_eq_seq_single] at h
      cases hh : hookApply cs (.seq [x]) <;> rw [hh] at h
      · dsimp only at h
        cases hc : convert cs x with
        | error e =>
            rw [hc] at h
            dsimp only at h
            simp only [Except.error.injEq] at h
            subst h
            have hx := convert_unconvertible_hasUnknown cs x hc
            simp [hasUnknown, hasUnknownList, hx]
        | ok f => rw [hc] at h; simp at h
      · simp at h
  | cs, .seq (x :: y :: rest) => by
      intro h
      rw [convert_eq_seq_multi] at h
      cases hh : hookApply cs (.seq (x :: y :: rest)) <;> rw [hh] at h <;> simp at h
  | cs, .ptype t => by
      intro h
      rw [convert_eq_ptype] at h
      cases hh : hookApply cs (.ptype t) <;> rw [hh] at h <;> simp at h
  | cs, .dictAnn k none => by
      intro h
      rw [convert_eq_dictAnn_none] at h
      cases hh : hookApply cs (.dictAnn k none) <;> rw [hh] at h <;> simp at h
  | cs, .dictAnn k (some v) => by
      intro h
      rw [convert_eq_dictAnn_some] at h
      cases hh : hookApply cs (.dictAnn k (some v)) <;> rw [hh] at h
      · dsimp only at h
        cases hc : convert none v with
        | error e =>
            rw [hc] at h
            dsimp only at h
            simp only [Except.error.injEq] at h
            subst h
            have hv := convert_unconvertible_hasUnknown none v hc
            simp [hasUnknown, hv]
        | ok f => rw [hc] at h; simp at h
      · simp at h
  | cs, .unknown => fun _ => rfl

theorem convList_unconvertible_hasUnknown :
    ∀ (cs : Option CSer) (l : List Schema),
      convList cs l = .error .unconvertible → hasUnknownList l = true
  | cs, [] => by intro h; simp [convList] at h
  | cs, x :: rest => by
      intro h
      unfold convList at h
      cases hc : convert cs x with
      | error e =>
          rw [hc] at h
          dsimp only at h
          simp only [Except.error.injEq] at h
          subst h
          have hx := convert_unconvertible_hasUnknown cs x hc
          simp [hasUnknownList, hx]
      | ok f =>
          rw [hc] at h
          dsimp only at h
          cases hcl : convList cs rest with
          | error e =>
              rw [hcl] at h
              dsimp only at h
              simp only [Except.error.injEq] at h
              subst h
              have hr := convList_unconvertible_hasUnknown cs rest hcl
              simp [hasUnknownList, hr]
          | ok fs => rw [hcl] at h; simp at h

theorem convMembers_unconvertible_hasUnknown :
    ∀ (cs : Option CSer) (l : List Schema),
      convMembers cs l = .error .unconvertible → hasUnknownList l = true
  | cs, [] => by intro h; simp [convMembers] at h
  | cs, x :: rest => by
      intro h
      unfold convMembers at h
      cases hc : convert cs x with
      | error e =>
          rw [hc] at h
          dsimp only at h
          simp only [Except.error.injEq] at h
          subst h
          have hx := convert_unconvertible_hasUnknown cs x hc
          simp [hasUnknownList, hx]
      | ok f =>
          rw [hc] at h
          dsimp only at h
          cases hcm : convMembers cs rest with
          | error e =>
              rw [hcm] at h
              dsimp only at h
              simp only [Except.error.injEq] at h
              subst h
              have hr := convMembers_unconvertible_hasUnknown cs rest hcm
              simp [hasUnknownList, hr]
          | ok ps => rw [hcm] at h; simp at h

theorem convPairs_unconvertible_hasUnknown :
    ∀ (cs : Option CSer) (l : List (MKey × Schema)) (props : Fragment)
      (req : List Val) (ap : Option Val),
      convPairs cs l props req ap = .error .unconvertible → hasUnknownPairs l = true
  | cs, [], props, req, ap => by intro h; simp [convPairs] at h
  | cs, (key, value) :: rest, props, req, ap => by
      intro h
      unfold convPairs at h
      cases hc : convert cs value with
      | error e =>
          rw [hc] at h
          dsimp only at h
          simp only [Except.error.injEq] at h
          subst h
          have hv := convert_unconvertible_hasUnknown cs value hc
          simp [hasUnknownPairs, hv]
      | ok pv0 =>
          rw [hc] at h
          dsimp only at h
          cases key with
          | anyK items =>
              have hr := convPairs_unconvertible_hasUnknown cs rest _ _ _ h
              simp [hasUnknownPairs, hr]
          | req pk dsc dv =>
              cases pk with
              | pstr name =>
                  have hr := convPairs_unconvertible_hasUnknown cs rest _ _ _ h
                  simp [hasUnknownPairs, hr]
              | pother r =>
                  have hr := convPairs_unconvertible_hasUnknown cs rest _ _ _ h
                  simp [hasUnknownPairs, hr]
          | opt pk dsc dv =>
              cases pk with
              | pstr name =>
                  have hr := convPairs_unconvertible_hasUnknown cs rest _ _ _ h
                  simp [hasUnknownPairs, hr]
              | pother r =>
                  have hr := convPairs_unconvertible_hasUnknown cs rest _ _ _ h
                  simp [hasUnknownPairs, hr]
          | plainK pk =>
              cases pk with
              | pstr name =>
                  have hr := convPairs_unconvertible_hasUnknown cs rest _ _ _ h
                  simp [hasUnknownPairs, hr]
              | pother r =>
                  have hr := convPairs_unconvertible_hasUnknown cs rest _ _ _ h
                  simp [hasUnknownPairs, hr]

end


/-- C8: the `UnconvertibleSchema` failure (the `ValueError` of source
line 289) is tied exactly to unrecognized nodes: converting the
unrecognized node fails with it; it is raised only when an unrecognized
node occurs in the input tree; and a nested failure propagates
unchanged through a mapping value, an intersection member and a
sequence item to the original caller — `convert` returns either a
complete document or the failure, never a partial document (the
`Except` result is one or the other by construction). -/
theorem c8_unconvertible_contract :
    convert none .unknown = .error .unconvertible
  ∧ (∀ (cs : Option CSer) (s : Schema),
        convert cs s = .error .unconvertible → hasUnknown s = true)
  ∧ (∀ (mk : MKey) (rest : List (MKey × Schema)) (s : Schema) (e : CErr),
        convert none s = .error e →
        convert none (.mapping ((mk, s) :: rest)) = .error e)
  ∧ (∀ (s : Schema) (rest : List Schema) (e : CErr),
        convert none s = .error e →
        convert none (.sAll (s :: rest)) = .error e)
  ∧ (∀ (s : Schema) (e : CErr),
        convert none s = .error e → convert none (.seq [s]) = .error e) := by
  refine ⟨rfl, convert_unconvertible_hasUnknown, ?_, ?_, ?_⟩
  · intro mk rest s e h
    rw [convert_eq_mapping]
    simp [hookApply, convPairs, h]
  · intro s rest e h
    rw [convert_eq_sAll]
    simp [hookApply, convList, h]
  · intro s e h
    rw [convert_eq_seq_single]
    simp [hookApply, h]

/-- Closed instance of `c8_unconvertible_contract`: an unrecognized
node nested as a mapping value makes the whole conversion fail with the
unconvertible error, and the tree indeed contains an unrecognized
node. -/
theorem c8_unconvertible_contract_witness :
    convert none (.mapping [(.plainK (.pstr "k"), .unknown)]) = .error .unconvertible
  ∧ hasUnknown (.mapping [(.plainK (.pstr "k"), .unknown)]) = true :=
  ⟨c8_unconvertible_contract.2.2.1 (.plainK (.pstr "k")) [] .unknown .unconvertible rfl,
   c8_unconvertible_contract.2.1 none (.mapping [(.plainK (.pstr "k"), .unknown)])
     (c8_unconvertible_contract.2.2.1 (.plainK (.pstr "k")) [] .unknown .unconvertible rfl)⟩

end VolOpenapi
